import Mathlib

/-
Verification of the pipeline-infer concurrent execution engine.

This file gives a shallow embedding, in Lean, of the parts of the engine
that the verified properties talk about:

  * the dynamic value universe exchanged between operators
    (Python objects: ints, lists, None)                       -> `Val`
  * the event classes of src/events/events.py                 -> `ProgressEvent`, `PipelineEvent`
  * listener notification of src/operators/base.py            -> `notifyListeners`
  * the operator process wrapper of src/operators/base.py     -> `processOp`
  * FilterOperator of src/operators/filter.py                 -> `FilterOperator.processImpl`
  * the DAG model and fluent construction of src/pipeline.py  -> `PipelineG`, `addOperator`,
       `connect`, `thenOp`, `branch`, `join`
  * the sequential scheduler Pipeline.execute                 -> `PipelineG.execute`
  * the value-level semantics of the concurrent schedulers
    of src/pipeline_async.py                                  -> `concCompute`, `concExecute`
  * the plain-list path of ThreadExecutor
    (src/executors/parallel.py)                               -> `executeBatchStreaming`
  * adaptive batch sizing of PipelineThreadExecutor
    (src/executors/pipeline_executor.py)                      -> `getAdaptiveBatchSize`
  * emit_event of AsyncEventDispatcher
    (src/events/async_events.py)                              -> `AsyncEventDispatcher.emit_event`
  * the constructor of SharedPerformanceMonitor
    (src/events/shared_monitor.py)                            -> `SharedPerformanceMonitor.init`

Modelling conventions:
  * Python floats are modelled as rationals; machine times are opaque inputs.
  * Code that raises is modelled in `Except String` (the message is abbreviated);
    a recursion of the source that diverges on cyclic graphs is modelled with a
    fuel argument, with `none` for exhaustion.
  * Nondeterministic completion order of a thread pool (as_completed) is
    modelled by an explicit completion-order parameter ranging over the
    permutations of each submitted batch.
-/

/-- Dynamic values flowing between operators: Python ints, lists and None.
(Strings, arrays and the like play no role in the verified properties; the
schedulers treat values opaquely, so a universe closed under list formation
suffices.) -/
inductive Val where
  | vnone : Val
  | vint : Int → Val
  | vlist : List Val → Val
deriving Repr

mutual

/-- Structural equality test on `Val` (Python == on these shapes). -/
def Val.beq : Val → Val → Bool
  | .vnone, .vnone => true
  | .vint a, .vint b => a == b
  | .vlist as, .vlist bs => Val.beqList as bs
  | _, _ => false

/-- Pointwise structural equality on lists of values. -/
def Val.beqList : List Val → List Val → Bool
  | [], [] => true
  | a :: as, b :: bs => Val.beq a b && Val.beqList as bs
  | _, _ => false

end

mutual

/-- Equality on `Val` is decidable (needed so concrete runs can be checked
by evaluation). -/
def Val.decEq : (a b : Val) → Decidable (a = b)
  | .vnone, .vnone => isTrue rfl
  | .vnone, .vint _ => isFalse (fun h => Val.noConfusion h)
  | .vnone, .vlist _ => isFalse (fun h => Val.noConfusion h)
  | .vint _, .vnone => isFalse (fun h => Val.noConfusion h)
  | .vint a, .vint b =>
      if h : a = b then isTrue (by rw [h])
      else isFalse (fun hh => h (by cases hh; rfl))
  | .vint _, .vlist _ => isFalse (fun h => Val.noConfusion h)
  | .vlist _, .vnone => isFalse (fun h => Val.noConfusion h)
  | .vlist _, .vint _ => isFalse (fun h => Val.noConfusion h)
  | .vlist as, .vlist bs =>
      match Val.decEqList as bs with
      | isTrue h => isTrue (by rw [h])
      | isFalse h => isFalse (fun hh => h (by cases hh; rfl))

/-- Decidable equality on lists of values. -/
def Val.decEqList : (as bs : List Val) → Decidable (as = bs)
  | [], [] => isTrue rfl
  | [], _ :: _ => isFalse (fun h => List.noConfusion h)
  | _ :: _, [] => isFalse (fun h => List.noConfusion h)
  | a :: as, b :: bs =>
      match Val.decEq a b, Val.decEqList as bs with
      | isTrue h1, isTrue h2 => isTrue (by rw [h1, h2])
      | isFalse h1, _ => isFalse (fun hh => h1 (by cases hh; rfl))
      | _, isFalse h2 => isFalse (fun hh => h2 (by cases hh; rfl))

end

instance : DecidableEq Val := Val.decEq

/-- Is this value a Python list?  (isinstance(data, list) in the source). -/
def Val.isList : Val → Bool
  | .vlist _ => true
  | _ => false

/-- Python `x or d` for an optional integer configuration value: `None` and
`0` are falsy, so both fall back to the default. -/
def pyOr (a : Option Nat) (d : Nat) : Nat :=
  match a with
  | none => d
  | some 0 => d
  | some k => k

/- ---------------------------------------------------------------------
Events (src/events/events.py)
--------------------------------------------------------------------- -/

/-- ProgressEvent dataclass: operator name, progress fraction, message. -/
structure ProgressEvent where
  operator_name : String
  progress : ℚ
  message : String
deriving DecidableEq, Repr

/-- Constructing a ProgressEvent runs the dataclass body together with
the post-init validation of src/events/events.py lines 19-28: a fraction
outside [0,1] raises ValueError at construction time. -/
def ProgressEvent.make (name : String) (p : ℚ) (msg : String) : Except String ProgressEvent :=
  if 0 ≤ p ∧ p ≤ 1 then Except.ok ⟨name, p, msg⟩
  else Except.error "ValueError: progress must be between 0 and 1"

/-- The event hierarchy of src/events/events.py (PipelineEvent and its
subclasses).  The performance-metrics payload is elided: no verified
property inspects it. -/
inductive PipelineEvent where
  | base : String → PipelineEvent
  | start : String → PipelineEvent
  | complete : String → PipelineEvent
  | progress : ProgressEvent → PipelineEvent
  | perfMetrics : String → PipelineEvent
deriving DecidableEq, Repr

/- ---------------------------------------------------------------------
Listener notification (src/operators/base.py, notify_listeners)
--------------------------------------------------------------------- -/

/-- A listener behaviour for one delivered event: on_event either returns
normally or raises an exception carrying a message. -/
def Listener : Type := PipelineEvent → Except String Unit

/-- Inner loop of PipelineOperator.notify_listeners, carrying the index of
the next listener.  The source is a bare for-loop over self.listeners with
no exception handling: each listener is invoked in order; the first raised
exception aborts the loop and propagates.  The returned list records the
indices of the listeners that were actually invoked. -/
def notifyFrom (ev : PipelineEvent) : Nat → List Listener → List Nat × Except String Unit
  | _, [] => ([], Except.ok ())
  | i, l :: rest =>
      match l ev with
      | Except.ok _ =>
          let r := notifyFrom ev (i + 1) rest
          (i :: r.1, r.2)
      | Except.error e => ([i], Except.error e)

/-- PipelineOperator.notify_listeners (src/operators/base.py lines 21-24):
iterate the listener list in registration order and call on_event on each. -/
def notifyListeners (ls : List Listener) (ev : PipelineEvent) : List Nat × Except String Unit :=
  notifyFrom ev 0 ls

/- ---------------------------------------------------------------------
Operator process wrapper (src/operators/base.py, process)
--------------------------------------------------------------------- -/

/-- SequentialExecutor.execute (src/executors/base.py): yield func(data),
a single result (or the exception raised by func). -/
def SequentialExecutor.execute (f : Val → Except String Val) (data : Val) :
    Except String (List Val) :=
  (f data).map (fun v => [v])

/-- Python try/finally over an event-emitting computation: the finally
block (here: a list of events to emit) runs whether the body returned or
raised, and the outcome of the body is then propagated unchanged. -/
def pyTryFinally (body : List PipelineEvent × Except String (List Val))
    (finEvents : List PipelineEvent) : List PipelineEvent × Except String (List Val) :=
  (body.1 ++ finEvents, body.2)

/-- PipelineOperator.process (src/operators/base.py lines 31-37), run to
completion: notify OperatorStartEvent, then inside try/finally delegate to
the executor, with OperatorCompleteEvent notified in the finally block.
Returns the emitted event trace and the outcome of the executor. -/
def processOp (name : String) (exec : Val → Except String (List Val)) (data : Val) :
    List PipelineEvent × Except String (List Val) :=
  let afterStart : List PipelineEvent := [PipelineEvent.start name]
  let body : List PipelineEvent × Except String (List Val) := ([], exec data)
  let finished := pyTryFinally body [PipelineEvent.complete name]
  (afterStart ++ finished.1, finished.2)

/- ---------------------------------------------------------------------
FilterOperator (src/operators/filter.py, _process_impl)
--------------------------------------------------------------------- -/

/-- FilterOperator._process_impl (src/operators/filter.py lines 32-36):
for a list input return the list of items satisfying the predicate; for
any other input return the input itself if the predicate holds and None
otherwise. -/
def FilterOperator.processImpl (pred : Val → Bool) (data : Val) : Val :=
  match data with
  | .vlist items => .vlist (items.filter pred)
  | v => if pred v then v else .vnone

/- ---------------------------------------------------------------------
The DAG model and fluent construction (src/pipeline.py)
--------------------------------------------------------------------- -/

/-- The Pipeline graph: operators as an insertion-ordered association list
from unique names to the single-input single-output function the scheduler
observes (next(op.process(input)) for a deterministic, non-raising
operator), and edges as the insertion-ordered association list behind the
defaultdict(list) of successor names.  Reads of missing edge keys in the
source only insert empty lists, which never affects any computed value, so
the embedding keeps lookups pure. -/
structure PipelineG where
  operators : List (String × (Val → Val))
  edges : List (String × List String)
  lastAdded : Option String

/-- Node names in insertion order (iteration order of the operators dict). -/
def PipelineG.names (P : PipelineG) : List String := P.operators.map Prod.fst

/-- Lookup in the edges defaultdict: successors of a node, empty when the
key is absent. -/
def edgeLookup (edges : List (String × List String)) (n : String) : List String :=
  ((edges.find? (fun e => e.1 = n)).map Prod.snd).getD []

/-- self.edges[from_op].append(to_op): append to the existing successor
list, or install the key at the end of the dict when absent. -/
def edgeAppend (edges : List (String × List String)) (f t : String) :
    List (String × List String) :=
  if edges.any (fun e => e.1 = f) then
    edges.map (fun e => if e.1 = f then (e.1, e.2 ++ [t]) else e)
  else edges ++ [(f, [t])]

/-- Pipeline.add_operator: fails on a duplicate name, otherwise appends
the operator to the dict. -/
def addOperator (P : PipelineG) (name : String) (fn : Val → Val) :
    Except String PipelineG :=
  if P.names.contains name then Except.error "ValueError: operator already exists"
  else Except.ok { P with operators := P.operators ++ [(name, fn)] }

/-- Pipeline.connect: fails when either endpoint is absent, otherwise
appends the edge. -/
def connect (P : PipelineG) (f t : String) : Except String PipelineG :=
  if ¬ P.names.contains f then Except.error "ValueError: source operator missing"
  else if ¬ P.names.contains t then Except.error "ValueError: target operator missing"
  else Except.ok { P with edges := edgeAppend P.edges f t }

/-- Pipeline.then: add the operator, connect it from the previously added
operator when one exists, and remember it as last added.  (then is a Lean
keyword, hence the name thenOp.) -/
def thenOp (P : PipelineG) (name : String) (fn : Val → Val) : Except String PipelineG := do
  let P1 ← addOperator P name fn
  let P2 ←
    match P.lastAdded with
    | some last => connect P1 last name
    | none => Except.ok P1
  Except.ok { P2 with lastAdded := some name }

/-- Pipeline.branch: requires a previously added operator; adds every given
operator and connects it as a successor of the last added one.  The last
added marker is not updated, exactly as in the source. -/
def branch (P : PipelineG) (ops : List (String × (Val → Val))) : Except String PipelineG :=
  match P.lastAdded with
  | none => Except.error "ValueError: must add an operator before branching"
  | some last =>
      ops.foldlM (fun acc op => do
        let acc1 ← addOperator acc op.1 op.2
        connect acc1 last op.1) P

/-- Pipeline.join (src/pipeline.py lines 98-110): add the operator FIRST,
then compute the current leaves (nodes with an empty successor list) over
the dict that already contains the new operator, and connect every such
leaf to the new operator. -/
def join (P : PipelineG) (name : String) (fn : Val → Val) : Except String PipelineG := do
  let P1 ← addOperator P name fn
  let leaves := P1.names.filter (fun n => edgeLookup P1.edges n = [])
  let P2 ← leaves.foldlM (fun acc leaf => connect acc leaf name) P1
  Except.ok { P2 with lastAdded := some name }

/- ---------------------------------------------------------------------
Sequential scheduler (src/pipeline.py, Pipeline.execute, lines 128-180)
--------------------------------------------------------------------- -/

/-- Input assembly shared by both schedulers: with no dependency results
the input is the given default (the initial data of the run), with one it
is that single result, with several it is the ordered result list. -/
def assembleInput (dflt : Val) : List Val → Val
  | [] => dflt
  | [v] => v
  | vs => Val.vlist vs

/-- Await each dependency in order and collect the results; none as soon
as one of them is unavailable (Option-valued mapM with explicit
equations). -/
def optMapM (g : String → Option Val) : List String → Option (List Val)
  | [] => some []
  | a :: l =>
      match g a with
      | none => none
      | some v => (optMapM g l).map (fun vs => v :: vs)

/-- Run state of one Pipeline.execute call: the executed set and the
results dict in insertion order. -/
structure SeqState where
  executed : List String
  results : List (String × Val)
deriving Repr

/-- Lookup in the results dict. -/
def resLookup (rs : List (String × Val)) (n : String) : Option Val :=
  (rs.find? (fun e => e.1 = n)).map Prod.snd

/-- The dependency-collection loop of execute_op: scan all operator names
in insertion order; whenever the current node appears among the successors
of the scanned name, recursively execute that name (execFn is the
recursive call at the enclosing recursion depth) and record its result. -/
def seqDepsRun (execFn : String → Val → SeqState → Option (Val × SeqState))
    (edges : List (String × List String)) :
    List String → String → Val → SeqState → Option (List Val × SeqState)
  | [], _, _, st => some ([], st)
  | d :: rest, opName, input, st =>
      if (edgeLookup edges d).contains opName then
        match execFn d input st with
        | none => none
        | some (v, st1) =>
            match seqDepsRun execFn edges rest opName input st1 with
            | none => none
            | some (vs, st2) => some (v :: vs, st2)
      else seqDepsRun execFn edges rest opName input st

/-- execute_op of Pipeline.execute, with a fuel bound on the recursion
depth (the Python recursion diverges on cyclic reachable subgraphs; fuel
exhaustion is modelled as none).  A memoized node returns its recorded
result; otherwise all predecessors are resolved first, the input is the
single predecessor result, the ordered list of predecessor results, or the
unchanged input when there is none, and the result is recorded.  The
progress notification of the source only emits an event and never changes
results, so it is not part of the value-level state. -/
def seqExecOp (P : PipelineG) : Nat → String → Val → SeqState → Option (Val × SeqState) :=
  Nat.rec (fun _ _ _ => none)
    (fun _ ih opName input st =>
      if st.executed.contains opName then
        match resLookup st.results opName with
        | some v => some (v, st)
        | none => none
      else
        match (P.operators.find? (fun e => e.1 = opName)).map Prod.snd with
        | none => none
        | some f =>
            match seqDepsRun ih P.edges P.names opName input st with
            | none => none
            | some (deps, st1) =>
                let r := f (assembleInput input deps)
                some (r, ⟨st1.executed ++ [opName], st1.results ++ [(opName, r)]⟩))

/-- Leaf nodes: names with no outgoing edges. -/
def seqLeaves (P : PipelineG) : List String :=
  P.names.filter (fun n => edgeLookup P.edges n = [])

/-- Pipeline.execute: raises on the empty pipeline (modelled none); starts
from the leaves, falling back to the first operator when no leaf exists,
and runs execute_op on every leaf with the initial data, sharing the
memoized state.  Fuel one more than the number of operators suffices for
every acyclic reachable subgraph.  Returns the results dict. -/
def PipelineG.execute (P : PipelineG) (initial : Val) : Option (List (String × Val)) :=
  if P.operators.isEmpty then none
  else
    (((if (seqLeaves P).isEmpty then [P.names.headD ""] else seqLeaves P).foldlM
        (fun st leaf => (seqExecOp P (P.operators.length + 1) leaf initial st).map Prod.snd)
        (⟨[], []⟩ : SeqState)).map SeqState.results)

/- ---------------------------------------------------------------------
Concurrent schedulers (src/pipeline_async.py): value-level semantics
--------------------------------------------------------------------- -/

/-- The reverse-dependency construction of execute_async (and of the
thread-based executor): for from_op, to_ops in edges.items(), for to_op in
to_ops, dependencies[to_op].append(from_op).  A node therefore sees its
dependencies in edge-dict insertion order, with multiplicity. -/
def concDeps (edges : List (String × List String)) (op : String) : List String :=
  edges.foldl
    (fun acc e => acc ++ e.2.filterMap (fun t => if t = op then some e.1 else none)) []

/-- Value computed for one node by the concurrent schedulers
(AsyncPipelineExecutor.execute_async / ThreadBasedPipelineExecutor.execute)
in a deterministic failure-free run: _collect_input_data awaits every
dependency in the order of the dependencies list, takes the initial data
when there is none, the single result for one dependency and the ordered
result list otherwise, and the node result is the operator applied to that
input.  The stored result of a node never depends on task interleaving, so
the fuel recursion recomputing dependency values yields exactly the value
the shared results dict holds; fuel exhaustion (none) corresponds to a run
that never completes. -/
def concCompute (P : PipelineG) (initial : Val) : Nat → String → Option Val :=
  Nat.rec (fun _ => none)
    (fun _ ih op =>
      match (P.operators.find? (fun e => e.1 = op)).map Prod.snd with
      | none => none
      | some f =>
          (optMapM ih (concDeps P.edges op)).map (fun vs => f (assembleInput initial vs)))

/-- The results map of a completed concurrent run: one task per operator,
each storing concCompute of its node. -/
def concExecute (P : PipelineG) (initial : Val) : List (String × Option Val) :=
  P.names.map (fun n => (n, concCompute P initial (P.operators.length + 1) n))

/-- The predecessor list the sequential scheduler uses for a node: all
names, in operator insertion order, having the node among their
successors (each at most once, by the membership test). -/
def seqDeps (P : PipelineG) (n : String) : List String :=
  P.names.filter (fun d => (edgeLookup P.edges d).contains n)

/-- Agreement of a sequential results dict with the concurrent scheduler:
every recorded node value is the value the concurrent schedulers compute
for that node (at some sufficient fuel). -/
def ConcAgrees (P : PipelineG) (initial : Val) (rs : List (String × Val)) : Prop :=
  ∀ n v, resLookup rs n = some v → ∃ G, concCompute P initial G n = some v

/- ---------------------------------------------------------------------
Concrete graphs for the scheduler properties
--------------------------------------------------------------------- -/

/-- The identity transform. -/
def idV : Val → Val := fun v => v

/-- Integer increment by k (other shapes returned unchanged). -/
def addIntV (k : Int) : Val → Val := fun v =>
  match v with
  | .vint n => .vint (n + k)
  | v => v

/-- Sum of a two-element integer list. -/
def sumPairV : Val → Val := fun v =>
  match v with
  | .vlist [.vint a, .vint b] => .vint (a + b)
  | v => v

/-- Difference of a two-element integer list (order sensitive). -/
def subPairV : Val → Val := fun v =>
  match v with
  | .vlist [.vint a, .vint b] => .vint (a - b)
  | v => v

/-- The diamond A to B, A to C, B and C to D of the specification, with A
the identity, B adding 1, C adding 2 and D summing its two inputs. -/
def diamond : PipelineG :=
  { operators := [("A", idV), ("B", addIntV 1), ("C", addIntV 2), ("D", sumPairV)],
    edges := [("A", ["B", "C"]), ("B", ["D"]), ("C", ["D"])],
    lastAdded := some "D" }

/-- A diamond whose edges into D were created in the order C before B
(edge-dict key order A, C, B) while the operators were inserted in order
A, B, C, D, and whose join transform is order sensitive. -/
def diamondSwapped : PipelineG :=
  { operators := [("A", idV), ("B", addIntV 1), ("C", addIntV 2), ("D", subPairV)],
    edges := [("A", ["B", "C"]), ("C", ["D"]), ("B", ["D"])],
    lastAdded := some "D" }

/-- A one-operator pipeline followed by join, the smallest input showing
how join wires the new operator (Pipeline then a, join b). -/
def joinExample : Except String PipelineG := do
  let P0 : PipelineG := { operators := [], edges := [], lastAdded := none }
  let P1 ← thenOp P0 "a" idV
  join P1 "b" idV

/- ---------------------------------------------------------------------
ThreadExecutor plain-list path (src/executors/parallel.py)
--------------------------------------------------------------------- -/

/-- Configuration of ThreadExecutor: worker count (None falls back to 4 in
the batch-size computation) and the memory ceiling. -/
structure ThreadExecutor where
  max_workers : Option Nat
  max_memory_items : Nat

/-- self.batch_size = (self.max_workers or 4) * 2. -/
def ThreadExecutor.batch_size (e : ThreadExecutor) : Nat := pyOr e.max_workers 4 * 2

/-- Structural worker for the chunking loop: the fuel argument (at most
one step per list element) only makes the recursion structural and is
always supplied as the list length. -/
def chunksOfGo (n : Nat) : Nat → List α → List (List α)
  | _, [] => []
  | 0, _ :: _ => []
  | fuel + 1, x :: xs =>
      if n = 0 then [] else (x :: xs).take n :: chunksOfGo n fuel ((x :: xs).drop n)

/-- The chunking loop for i in range(0, len(data), n): data[i:i+n].  A zero
step raises in Python and is modelled as producing no chunks; every use
site has n positive. -/
def chunksOf (n : Nat) (l : List α) : List (List α) := chunksOfGo n l.length l

/-- as_completed over the futures of one batch: the pool hands results
back in completion order, an arbitrary permutation of the submission
order.  Given one completion order (a list of positions into the batch),
yield the corresponding results. -/
def asCompleted (order : List Nat) (results : List β) : List β :=
  order.filterMap (fun i => results.get? i)

/-- A completion schedule assigns each submitted batch (indexed globally
in submission order) the order in which its futures complete; it is valid
when each order is a permutation of the batch positions. -/
def ValidSched (sched : Nat → List Nat) (batches : List (List α)) : Prop :=
  ∀ i, (h : i < batches.length) → (sched i).Perm (List.range (batches.get ⟨i, h⟩).length)

/-- ThreadExecutor._execute_batch_streaming (src/executors/parallel.py
lines 75-90), the path taken by execute for a plain list or tuple input:
slice the input into chunks of max_memory_items, slice each chunk into
batches of batch_size, submit each batch to the pool and yield its results
in completion order (for future in as_completed(futures)). -/
def executeBatchStreaming (maxMemoryItems batchSize : Nat) (f : α → β)
    (dataList : List α) (sched : Nat → List Nat) : List β :=
  let batches := ((chunksOf maxMemoryItems dataList).map (chunksOf batchSize)).flatten
  (batches.enum.map (fun p => asCompleted (sched p.1) (p.2.map f))).flatten

/-- ThreadExecutor.execute on a plain list input (lines 16-27 dispatch to
the batch-streaming path with the executor configuration). -/
def ThreadExecutor.executeList (e : ThreadExecutor) (f : α → β)
    (dataList : List α) (sched : Nat → List Nat) : List β :=
  executeBatchStreaming e.max_memory_items e.batch_size f dataList sched

/-- The batches a given executor submits for a given input list. -/
def ThreadExecutor.batchesFor (e : ThreadExecutor) (dataList : List α) : List (List α) :=
  ((chunksOf e.max_memory_items dataList).map (chunksOf e.batch_size)).flatten

/-- The completion schedule in which every batch completes in submission
order. -/
def inOrderSched (e : ThreadExecutor) (dataList : List α) : Nat → List Nat :=
  fun i => List.range (((e.batchesFor dataList).getD i []).length)

/-- A schedule for a two-element input within one batch where the second
submitted task finishes first. -/
def swapSched : Nat → List Nat := fun i => if i = 0 then [1, 0] else []

/- ---------------------------------------------------------------------
Adaptive batch sizing (src/executors/pipeline_executor.py, lines 220-234)
--------------------------------------------------------------------- -/

/-- State of PipelineThreadExecutor relevant to batch sizing: worker
count, the current batch size, the adaptive flag and the recorded task
durations (the deque holds the last 100 measured times; only its current
contents matter here).  Durations are seconds as rationals. -/
structure PipelineThreadExecutor where
  max_workers : Nat
  batch_size : Nat
  adaptive_batching : Bool
  task_times : List ℚ

/-- The constructor defaults: max_workers = max_workers or 4, batch_size =
max_workers * 2, adaptive batching on, no recorded times. -/
def PipelineThreadExecutor.init (mw : Option Nat) : PipelineThreadExecutor :=
  { max_workers := pyOr mw 4,
    batch_size := pyOr mw 4 * 2,
    adaptive_batching := true,
    task_times := [] }

/-- PipelineThreadExecutor._get_adaptive_batch_size: with adaptation off
or no history, the current batch size; otherwise compare the mean recorded
duration against 1ms and 100ms and grow to min(current*2, workers*4),
shrink to max(current//2, workers), or keep the current size. -/
def getAdaptiveBatchSize (e : PipelineThreadExecutor) : Nat :=
  if ¬ e.adaptive_batching ∨ e.task_times = [] then e.batch_size
  else
    let avg : ℚ := e.task_times.sum / e.task_times.length
    if avg < 1 / 1000 then min (e.batch_size * 2) (e.max_workers * 4)
    else if avg > 1 / 10 then max (e.batch_size / 2) e.max_workers
    else e.batch_size

/-- An executor state with the given recorded durations, all other fields
as constructed with default arguments. -/
def executorWithTimes (ts : List ℚ) : PipelineThreadExecutor :=
  { PipelineThreadExecutor.init none with task_times := ts }

/- ---------------------------------------------------------------------
AsyncEventDispatcher.emit_event (src/events/async_events.py, lines 119-127)
--------------------------------------------------------------------- -/

/-- The dispatcher statistics dict (the fields touched by emit_event). -/
structure DispatcherStats where
  events_queued : Nat
  queue_full_drops : Nat
deriving DecidableEq, Repr

/-- Dispatcher state relevant to emission: the bounded queue content and
capacity (queue.Queue(maxsize); maxsize zero means unbounded in Python)
and the statistics counters. -/
structure AsyncEventDispatcher where
  max_queue_size : Nat
  event_queue : List PipelineEvent
  stats : DispatcherStats
deriving Repr

/-- A fresh dispatcher with the given capacity (default 10000 in the
source) and zeroed counters. -/
def AsyncEventDispatcher.init (cap : Nat) : AsyncEventDispatcher :=
  { max_queue_size := cap, event_queue := [], stats := ⟨0, 0⟩ }

/-- emit_event: put_nowait the event; on success count events_queued and
return True; the only exception put_nowait raises is queue.Full (when the
capacity is positive and reached), which is caught, counted in
queue_full_drops, and answered with False.  The call never blocks and
never propagates an exception. -/
def AsyncEventDispatcher.emit_event (d : AsyncEventDispatcher) (ev : PipelineEvent) :
    Bool × AsyncEventDispatcher :=
  if 0 < d.max_queue_size ∧ d.max_queue_size ≤ d.event_queue.length then
    (false, { d with stats := { d.stats with queue_full_drops := d.stats.queue_full_drops + 1 } })
  else
    (true, { d with event_queue := d.event_queue ++ [ev],
                    stats := { d.stats with events_queued := d.stats.events_queued + 1 } })

/- ---------------------------------------------------------------------
SharedPerformanceMonitor construction (src/events/shared_monitor.py)
--------------------------------------------------------------------- -/

/-- The keyword arguments collections.deque accepts (iterable and maxlen);
any other keyword raises TypeError. -/
def dequeAcceptedKeywords : List String := ["iterable", "maxlen"]

/-- Constructing a deque with the given keyword argument names: TypeError
unless every keyword is accepted. -/
def dequeInit (kwargs : List String) : Except String Unit :=
  if kwargs.all (fun k => dequeAcceptedKeywords.contains k) then Except.ok ()
  else Except.error "TypeError: invalid keyword argument for deque"

/-- Appending to a deque bounded by maxlen: the new element always enters
and, when the bound is exceeded, the OLDEST element is evicted; append
never raises. -/
def dequeAppendMaxlen (maxlen : Nat) (l : List α) (x : α) : List α :=
  let l2 := l ++ [x]
  l2.drop (l2.length - maxlen)

/-- The monitor state __init__ would build if it completed. -/
structure SharedPerformanceMonitor where
  active_sessions : List (String × String)
  pending_events : List PipelineEvent
  total_sessions : Nat
  events_generated : Nat
deriving Repr

/-- SharedPerformanceMonitor.__init__ (src/events/shared_monitor.py lines
50-81): among its field initialisations it evaluates
deque(maxsize=1000) for the pending-event queue; maxsize is not a keyword
deque accepts, so the constructor raises TypeError before any state
exists. -/
def SharedPerformanceMonitor.init : Except String SharedPerformanceMonitor :=
  match dequeInit ["maxsize"] with
  | Except.error e => Except.error e
  | Except.ok _ =>
      Except.ok { active_sessions := [], pending_events := [],
                  total_sessions := 0, events_generated := 0 }

/- ---------------------------------------------------------------------
Concrete listener behaviours used in the listener-notification analysis
--------------------------------------------------------------------- -/

/-- A listener whose on_event returns normally. -/
def l_ok : Listener := fun _ => Except.ok ()

/-- A listener whose on_event raises. -/
def l_raise : Listener := fun _ => Except.error "listener exception"

/-- An even-integer predicate on values (an example predicate_fn). -/
def evenV : Val → Bool := fun v =>
  match v with
  | .vint n => n % 2 == 0
  | _ => false

/- =====================================================================
Theorems
===================================================================== -/

/-- Helper: isOk of an ok progress-event construction. -/
theorem isOk_ok_progress (x : ProgressEvent) :
    (Except.ok x : Except String ProgressEvent).isOk = true := rfl

/-- Helper: isOk of a failed progress-event construction. -/
theorem isOk_error_progress (e : String) :
    (Except.error e : Except String ProgressEvent).isOk = false := rfl

/-- Claim C8: constructing a ProgressEvent with fraction f raises if and
only if f is negative or exceeds 1; in particular 1.5 and -0.1 fail while
0.0 and 1.0 succeed, so a fraction accepted at construction never fails a
later range check. -/
theorem progress_fraction_construction :
    (∀ (name : String) (p : ℚ) (msg : String),
        (ProgressEvent.make name p msg).isOk = false ↔ (p < 0 ∨ 1 < p))
    ∧ (ProgressEvent.make "op" (3 / 2) "m").isOk = false
    ∧ (ProgressEvent.make "op" (-1 / 10) "m").isOk = false
    ∧ (ProgressEvent.make "op" 0 "m").isOk = true
    ∧ (ProgressEvent.make "op" 1 "m").isOk = true := by
  refine ⟨fun name p msg => ?_,
    by rw [ProgressEvent.make, if_neg (by norm_num), isOk_error_progress],
    by rw [ProgressEvent.make, if_neg (by norm_num), isOk_error_progress],
    by rw [ProgressEvent.make, if_pos (by norm_num), isOk_ok_progress],
    by rw [ProgressEvent.make, if_pos (by norm_num), isOk_ok_progress]⟩
  by_cases h : 0 ≤ p ∧ p ≤ 1
  · rw [ProgressEvent.make, if_pos h, isOk_ok_progress]
    have hn : ¬(p < 0 ∨ 1 < p) := by push_neg; exact ⟨h.1, h.2⟩
    simp [hn]
  · rw [ProgressEvent.make, if_neg h, isOk_error_progress]
    have hn : p < 0 ∨ 1 < p := by
      by_contra hh
      push_neg at hh
      exact h ⟨hh.1, hh.2⟩
    simp [hn]

/-- Claim C5 (code bug): the source initialises the pending-event queue
with deque(maxsize=1000), but maxsize is not a keyword deque accepts, so
SharedPerformanceMonitor.__init__ raises TypeError on first construction;
no queue bounded at 1000 entries ever exists and end_session is never
reachable on a constructed monitor. -/
theorem sharedMonitor_init_typeerror :
    SharedPerformanceMonitor.init
      = Except.error "TypeError: invalid keyword argument for deque" := rfl

/-- Claim C9: emit_event never blocks or raises (it is a total function on
the dispatcher state): with free queue space (or an unbounded queue) the
event is appended, events_queued increments and the call answers true;
with the bounded queue full the event is dropped, queue_full_drops
increments, the queue is unchanged and the call answers false. -/
theorem emit_event_nonblocking (d : AsyncEventDispatcher) (ev : PipelineEvent) :
    (d.event_queue.length < d.max_queue_size ∨ d.max_queue_size = 0 →
        (d.emit_event ev).1 = true
        ∧ (d.emit_event ev).2.event_queue = d.event_queue ++ [ev]
        ∧ (d.emit_event ev).2.stats.events_queued = d.stats.events_queued + 1
        ∧ (d.emit_event ev).2.stats.queue_full_drops = d.stats.queue_full_drops)
    ∧ (0 < d.max_queue_size ∧ d.max_queue_size ≤ d.event_queue.length →
        (d.emit_event ev).1 = false
        ∧ (d.emit_event ev).2.event_queue = d.event_queue
        ∧ (d.emit_event ev).2.stats.queue_full_drops = d.stats.queue_full_drops + 1
        ∧ (d.emit_event ev).2.stats.events_queued = d.stats.events_queued) := by
  constructor
  · intro h
    have hfree : ¬(0 < d.max_queue_size ∧ d.max_queue_size ≤ d.event_queue.length) := by
      rcases h with h | h
      · intro hh
        omega
      · intro hh
        omega
    simp [AsyncEventDispatcher.emit_event, hfree]
  · intro h
    simp [AsyncEventDispatcher.emit_event, h]

/-- Witness for emit_event_nonblocking: on a fresh capacity-1 dispatcher
the first emission is accepted and the second is dropped. -/
theorem emit_event_nonblocking_witness :
    ((AsyncEventDispatcher.init 1).emit_event (PipelineEvent.base "x")).1 = true
    ∧ (((AsyncEventDispatcher.init 1).emit_event (PipelineEvent.base "x")).2.emit_event
        (PipelineEvent.base "y")).1 = false := by
  have h1 := emit_event_nonblocking (AsyncEventDispatcher.init 1) (PipelineEvent.base "x")
  have h2 := emit_event_nonblocking
    ((AsyncEventDispatcher.init 1).emit_event (PipelineEvent.base "x")).2
    (PipelineEvent.base "y")
  exact ⟨(h1.1 (Or.inl (by decide))).1, (h2.2 (by decide)).1⟩

/-- Claim C10: FilterOperator maps a rejected single (non-list) input to
None and an accepted one to itself, and maps a list input to the sublist
of elements satisfying the predicate, preserving input order. -/
theorem filter_single_none_list_sublist (p : Val → Bool) :
    (∀ v, v.isList = false →
        FilterOperator.processImpl p v = (if p v then v else Val.vnone))
    ∧ (∀ l, FilterOperator.processImpl p (Val.vlist l) = Val.vlist (l.filter p)
        ∧ (l.filter p).Sublist l
        ∧ (∀ x, x ∈ l.filter p ↔ x ∈ l ∧ p x = true)) := by
  constructor
  · intro v hv
    cases v with
    | vnone => rfl
    | vint n => rfl
    | vlist l => simp [Val.isList] at hv
  · intro l
    refine ⟨rfl, List.filter_sublist l, fun x => List.mem_filter⟩

/-- Witness for filter_single_none_list_sublist: the even predicate on the
single input 3 yields None, on 4 yields 4, and on the list [1,2,3,4]
yields [2,4]. -/
theorem filter_single_none_list_sublist_witness :
    FilterOperator.processImpl evenV (Val.vint 3) = Val.vnone
    ∧ FilterOperator.processImpl evenV (Val.vint 4) = Val.vint 4
    ∧ FilterOperator.processImpl evenV
        (Val.vlist [Val.vint 1, Val.vint 2, Val.vint 3, Val.vint 4])
      = Val.vlist [Val.vint 2, Val.vint 4] := by
  have h3 := (filter_single_none_list_sublist evenV).1 (Val.vint 3) (by decide)
  have h4 := (filter_single_none_list_sublist evenV).1 (Val.vint 4) (by decide)
  have hl := ((filter_single_none_list_sublist evenV).2
    [Val.vint 1, Val.vint 2, Val.vint 3, Val.vint 4]).1
  refine ⟨by rw [h3]; decide, by rw [h4]; decide, by rw [hl]; decide⟩

/-- Claim C6: process emits OperatorStartEvent before the executor runs
and OperatorCompleteEvent afterwards, unconditionally: the event trace of
a completed process call is exactly [Start, Complete] and the executor
outcome (including a raised exception) is propagated unchanged, so a
failure still sees Complete emitted before the exception reaches the
caller. -/
theorem process_start_complete (name : String) (exec : Val → Except String (List Val))
    (data : Val) :
    (processOp name exec data).1 = [PipelineEvent.start name, PipelineEvent.complete name]
    ∧ (processOp name exec data).2 = exec data
    ∧ (∀ e, exec data = Except.error e →
        (processOp name exec data).2 = Except.error e
        ∧ (processOp name exec data).1
            = [PipelineEvent.start name, PipelineEvent.complete name]) := by
  refine ⟨rfl, rfl, fun e he => ⟨?_, rfl⟩⟩
  show exec data = Except.error e
  exact he

/-- Witness for process_start_complete: an operator whose transform raises
still produces the trace [Start, Complete] and propagates the error. -/
theorem process_start_complete_witness :
    (processOp "op" (fun _ => Except.error "transform failed") (Val.vint 0)).1
      = [PipelineEvent.start "op", PipelineEvent.complete "op"]
    ∧ (processOp "op" (fun _ => Except.error "transform failed") (Val.vint 0)).2
      = Except.error "transform failed" := by
  have h := process_start_complete "op" (fun _ => Except.error "transform failed") (Val.vint 0)
  exact ⟨h.1, (h.2.2 "transform failed" rfl).1⟩

/-- Claim C2 (code bug): join computes the leaf set only after the new
operator has been added, so the new operator (having no outgoing edges) is
itself a leaf and receives a self-edge: joining b onto the one-operator
pipeline a produces edges a to b AND b to b, not just the pre-call leaf a,
and the edge relation is no longer acyclic. -/
theorem join_creates_self_edge :
    joinExample.map PipelineG.edges = Except.ok [("a", ["b"]), ("b", ["b"])]
    ∧ joinExample.map (fun P => edgeLookup P.edges "b") = Except.ok ["b"]
    ∧ joinExample.map PipelineG.edges ≠ Except.ok [("a", ["b"])] := by
  refine ⟨rfl, rfl, ?_⟩
  have h1 : joinExample.map PipelineG.edges = Except.ok [("a", ["b"]), ("b", ["b"])] := rfl
  rw [h1]
  intro h
  injection h with h2
  exact absurd h2 (by decide)

/-- Helper: when every listener returns normally, the loop visits them all
in order. -/
theorem notifyFrom_all_ok (ev : PipelineEvent) :
    ∀ (ls : List Listener) (i : Nat), (∀ l ∈ ls, l ev = Except.ok ()) →
      notifyFrom ev i ls = (List.range' i ls.length, Except.ok ()) := by
  intro ls
  induction ls with
  | nil => intro i _; rfl
  | cons l rest ih =>
      intro i h
      have hl : l ev = Except.ok () := h l (List.mem_cons_self l rest)
      have hr := ih (i + 1) (fun x hx => h x (List.mem_cons_of_mem l hx))
      simp only [notifyFrom, hl, hr, List.length_cons, List.range'_succ]

/-- Helper: when the listener at position k is the first to raise, the
loop visits exactly positions 0..k and propagates that exception. -/
theorem notifyFrom_first_err (ev : PipelineEvent) :
    ∀ (ls : List Listener) (i k : Nat) (hk : k < ls.length) (e : String),
      (∀ j, (hj : j < k) → ls.get ⟨j, lt_trans hj hk⟩ ev = Except.ok ()) →
      ls.get ⟨k, hk⟩ ev = Except.error e →
      notifyFrom ev i ls = (List.range' i (k + 1), Except.error e) := by
  intro ls
  induction ls with
  | nil => intro i k hk; simp at hk
  | cons l rest ih =>
      intro i k hk e hpre hk_err
      cases k with
      | zero =>
          have hl : l ev = Except.error e := hk_err
          simp only [notifyFrom, hl, List.range'_succ, List.range'_zero]
      | succ k =>
          have hl : l ev = Except.ok () := hpre 0 (Nat.succ_pos k)
          have hrest := ih (i + 1) k (by simpa using Nat.lt_of_succ_lt_succ hk) e
            (fun j hj => hpre (j + 1) (Nat.succ_lt_succ hj)) hk_err
          simp only [notifyFrom, hl, hrest, List.range'_succ]

/-- Claim C3 counterexample: with listeners [ok, raising, ok] only the
first two listeners are invoked (the third is skipped) and the raised
exception propagates to the caller of notify_listeners, refuting both
halves of the claim. -/
theorem notify_listeners_counterexample :
    notifyListeners [l_ok, l_raise, l_ok] (PipelineEvent.base "op")
      = ([0, 1], Except.error "listener exception")
    ∧ (notifyListeners [l_ok, l_raise, l_ok] (PipelineEvent.base "op")).1 ≠ [0, 1, 2]
    ∧ (notifyListeners [l_ok, l_raise, l_ok] (PipelineEvent.base "op")).2
        ≠ Except.ok () := by
  refine ⟨rfl, by decide, ?_⟩
  have h : (notifyListeners [l_ok, l_raise, l_ok] (PipelineEvent.base "op")).2
      = Except.error "listener exception" := rfl
  rw [h]
  intro hh
  exact Except.noConfusion hh

/-- Claim C3 (amended): notify_listeners calls listeners in registration
order up to and including the first raising listener; that exception
propagates to the caller and the remaining listeners are not notified;
when no listener raises, every listener is notified exactly once in
registration order. -/
theorem notify_listeners_first_error (ls : List Listener) (ev : PipelineEvent) :
    ((∀ l ∈ ls, l ev = Except.ok ()) →
        notifyListeners ls ev = (List.range ls.length, Except.ok ()))
    ∧ (∀ (k : Nat) (hk : k < ls.length) (e : String),
        (∀ j, (hj : j < k) → ls.get ⟨j, lt_trans hj hk⟩ ev = Except.ok ()) →
        ls.get ⟨k, hk⟩ ev = Except.error e →
        notifyListeners ls ev = (List.range (k + 1), Except.error e)) := by
  constructor
  · intro h
    rw [notifyListeners, notifyFrom_all_ok ev ls 0 h, List.range_eq_range']
  · intro k hk e hpre herr
    rw [notifyListeners, notifyFrom_first_err ev ls 0 k hk e hpre herr, List.range_eq_range']

/-- Witness for notify_listeners_first_error: on [ok, raising, ok] the
first failing index is 1, so exactly positions 0 and 1 run and the
exception surfaces. -/
theorem notify_listeners_first_error_witness :
    notifyListeners [l_ok, l_raise, l_ok] (PipelineEvent.base "op")
      = (List.range 2, Except.error "listener exception") := by
  have h := (notify_listeners_first_error [l_ok, l_raise, l_ok] (PipelineEvent.base "op")).2
    1 (by decide) "listener exception"
    (fun j hj => by
      have hj0 : j = 0 := by omega
      subst hj0
      rfl)
    rfl
  exact h

/-- Claim C7: the adaptive batch size doubles (capped at workers*4) below
a 1ms mean task duration, halves (floored at workers) above 100ms, and is
unchanged in between; 100 recorded durations of 0.5ms grow the size from
the default 8 to 16 and 100 durations of 150ms shrink it to 4, and for
every executor built by the constructor the adjusted value lies in
[workers, workers*4]. -/
theorem adaptive_batch_size_spec :
    (∀ (e : PipelineThreadExecutor), e.adaptive_batching = true → e.task_times ≠ [] →
        ((e.task_times.sum / (e.task_times.length : ℚ) < 1 / 1000 →
            getAdaptiveBatchSize e = min (e.batch_size * 2) (e.max_workers * 4))
          ∧ (e.task_times.sum / (e.task_times.length : ℚ) > 1 / 10 →
            getAdaptiveBatchSize e = max (e.batch_size / 2) e.max_workers)
          ∧ (¬(e.task_times.sum / (e.task_times.length : ℚ) < 1 / 1000) →
            ¬(e.task_times.sum / (e.task_times.length : ℚ) > 1 / 10) →
            getAdaptiveBatchSize e = e.batch_size)))
    ∧ getAdaptiveBatchSize (executorWithTimes (List.replicate 100 (1 / 2000 : ℚ))) = 16
    ∧ getAdaptiveBatchSize (executorWithTimes (List.replicate 100 (3 / 20 : ℚ))) = 4
    ∧ (PipelineThreadExecutor.init none).batch_size = 8
    ∧ (8 : Nat) ≤ 16 ∧ (4 : Nat) ≤ 8
    ∧ (∀ (mw : Option Nat) (ts : List ℚ),
        (PipelineThreadExecutor.init mw).max_workers
            ≤ getAdaptiveBatchSize { PipelineThreadExecutor.init mw with task_times := ts }
        ∧ getAdaptiveBatchSize { PipelineThreadExecutor.init mw with task_times := ts }
            ≤ (PipelineThreadExecutor.init mw).max_workers * 4) := by
  have hgen : ∀ (e : PipelineThreadExecutor), e.adaptive_batching = true → e.task_times ≠ [] →
      ((e.task_times.sum / (e.task_times.length : ℚ) < 1 / 1000 →
          getAdaptiveBatchSize e = min (e.batch_size * 2) (e.max_workers * 4))
        ∧ (e.task_times.sum / (e.task_times.length : ℚ) > 1 / 10 →
          getAdaptiveBatchSize e = max (e.batch_size / 2) e.max_workers)
        ∧ (¬(e.task_times.sum / (e.task_times.length : ℚ) < 1 / 1000) →
          ¬(e.task_times.sum / (e.task_times.length : ℚ) > 1 / 10) →
          getAdaptiveBatchSize e = e.batch_size)) := by
    intro e had hne
    have hcond : ¬(¬e.adaptive_batching = true ∨ e.task_times = []) := by
      rw [had]
      simp [hne]
    refine ⟨fun hfast => ?_, fun hslow => ?_, fun hnf hns => ?_⟩
    · rw [getAdaptiveBatchSize, if_neg hcond, if_pos hfast]
    · have hnf : ¬(e.task_times.sum / (e.task_times.length : ℚ) < 1 / 1000) := by
        intro hh
        have : (1 : ℚ) / 1000 < 1 / 10 := by norm_num
        linarith
      rw [getAdaptiveBatchSize, if_neg hcond, if_neg hnf, if_pos hslow]
    · rw [getAdaptiveBatchSize, if_neg hcond, if_neg hnf, if_neg hns]
  have havg_fast : ((List.replicate 100 ((1 : ℚ) / 2000)).sum
      / ((List.replicate 100 ((1 : ℚ) / 2000)).length : ℚ)) = 1 / 2000 := by
    rw [List.sum_replicate, List.length_replicate]
    push_cast [nsmul_eq_mul]
    norm_num
  have havg_slow : ((List.replicate 100 ((3 : ℚ) / 20)).sum
      / ((List.replicate 100 ((3 : ℚ) / 20)).length : ℚ)) = 3 / 20 := by
    rw [List.sum_replicate, List.length_replicate]
    push_cast [nsmul_eq_mul]
    norm_num
  have hfast16 : getAdaptiveBatchSize (executorWithTimes (List.replicate 100 (1 / 2000 : ℚ)))
      = 16 := by
    have h := (hgen (executorWithTimes (List.replicate 100 (1 / 2000 : ℚ))) rfl
      (by simp [executorWithTimes, PipelineThreadExecutor.init])).1
    have he : (executorWithTimes (List.replicate 100 (1 / 2000 : ℚ))).task_times
        = List.replicate 100 ((1 : ℚ) / 2000) := rfl
    rw [he] at h
    rw [h (by rw [havg_fast]; norm_num)]
    rfl
  have hslow4 : getAdaptiveBatchSize (executorWithTimes (List.replicate 100 (3 / 20 : ℚ)))
      = 4 := by
    have h := (hgen (executorWithTimes (List.replicate 100 (3 / 20 : ℚ))) rfl
      (by simp [executorWithTimes, PipelineThreadExecutor.init])).2.1
    have he : (executorWithTimes (List.replicate 100 (3 / 20 : ℚ))).task_times
        = List.replicate 100 ((3 : ℚ) / 20) := rfl
    rw [he] at h
    rw [h (by rw [havg_slow]; norm_num)]
    rfl
  refine ⟨hgen, hfast16, hslow4, rfl, by norm_num, by norm_num, ?_⟩
  intro mw ts
  have key : getAdaptiveBatchSize { PipelineThreadExecutor.init mw with task_times := ts }
        = ({ PipelineThreadExecutor.init mw with task_times := ts }
            : PipelineThreadExecutor).batch_size
      ∨ getAdaptiveBatchSize { PipelineThreadExecutor.init mw with task_times := ts }
        = min (({ PipelineThreadExecutor.init mw with task_times := ts }
            : PipelineThreadExecutor).batch_size * 2)
            (({ PipelineThreadExecutor.init mw with task_times := ts }
            : PipelineThreadExecutor).max_workers * 4)
      ∨ getAdaptiveBatchSize { PipelineThreadExecutor.init mw with task_times := ts }
        = max (({ PipelineThreadExecutor.init mw with task_times := ts }
            : PipelineThreadExecutor).batch_size / 2)
            (({ PipelineThreadExecutor.init mw with task_times := ts }
            : PipelineThreadExecutor).max_workers) := by
    simp only [getAdaptiveBatchSize]
    split_ifs <;>
      first
        | exact Or.inl rfl
        | exact Or.inr (Or.inl rfl)
        | exact Or.inr (Or.inr rfl)
  have hebs : ({ PipelineThreadExecutor.init mw with task_times := ts }
      : PipelineThreadExecutor).batch_size = (PipelineThreadExecutor.init mw).max_workers * 2 :=
    rfl
  have hew : ({ PipelineThreadExecutor.init mw with task_times := ts }
      : PipelineThreadExecutor).max_workers = (PipelineThreadExecutor.init mw).max_workers :=
    rfl
  rcases key with h | h | h <;> rw [h, hebs] <;> try rw [hew]
  · omega
  · omega
  · omega

/-- Witness for adaptive_batch_size_spec: a single recorded duration of
one second exceeds 100ms, so the size shrinks to max(8 div 2, 4) = 4. -/
theorem adaptive_batch_size_spec_witness :
    getAdaptiveBatchSize (executorWithTimes [1]) = 4 := by
  have h := (adaptive_batch_size_spec.1 (executorWithTimes [1]) rfl
    (by simp [executorWithTimes, PipelineThreadExecutor.init])).2.1
  have he : (executorWithTimes [1]).task_times = [(1 : ℚ)] := rfl
  rw [he] at h
  rw [h (by norm_num)]
  rfl

/-- Helper: the batch size computed by the ThreadExecutor constructor is
positive. -/
theorem pyOr_pos (a : Option Nat) (d : Nat) (hd : 0 < d) : 0 < pyOr a d := by
  cases a with
  | none => simpa [pyOr] using hd
  | some k =>
      cases k with
      | zero => simpa [pyOr] using hd
      | succ k => simp [pyOr]

/-- Helper: chunking with a positive step and enough fuel concatenates
back to the original list. -/
theorem chunksOfGo_flatten (n : Nat) (hn : 0 < n) :
    ∀ (fuel : Nat) (l : List α), l.length ≤ fuel → (chunksOfGo n fuel l).flatten = l := by
  intro fuel
  induction fuel with
  | zero =>
      intro l hl
      cases l with
      | nil => rfl
      | cons x xs => simp at hl
  | succ fuel ih =>
      intro l hl
      cases l with
      | nil => rfl
      | cons x xs =>
          have hn0 : n ≠ 0 := by omega
          have hlen : ((x :: xs).drop n).length ≤ fuel := by
            rw [List.length_drop]
            simp only [List.length_cons] at hl ⊢
            omega
          simp only [chunksOfGo, if_neg hn0, List.flatten_cons, ih ((x :: xs).drop n) hlen]
          exact List.take_append_drop n (x :: xs)

/-- Helper: chunking concatenates back to the original list. -/
theorem chunksOf_flatten (n : Nat) (hn : 0 < n) (l : List α) :
    (chunksOf n l).flatten = l :=
  chunksOfGo_flatten n hn l.length l le_rfl

/-- Helper: the two-level chunk-then-batch slicing concatenates back to
the concatenation of the chunks. -/
theorem flatten_map_chunksOf (bs : Nat) (hbs : 0 < bs) :
    ∀ (cs : List (List α)), ((cs.map (chunksOf bs)).flatten).flatten = cs.flatten := by
  intro cs
  induction cs with
  | nil => rfl
  | cons c rest ih =>
      simp only [List.map_cons, List.flatten_cons, List.flatten_append, ih,
        chunksOf_flatten bs hbs c]

/-- Helper: all batches submitted for a list concatenate back to that
list. -/
theorem batchesFor_flatten (e : ThreadExecutor) (hmm : 0 < e.max_memory_items)
    (dataList : List α) : (e.batchesFor dataList).flatten = dataList := by
  have hbs : 0 < e.batch_size := by
    have := pyOr_pos e.max_workers 4 (by omega)
    rw [ThreadExecutor.batch_size]
    omega
  rw [ThreadExecutor.batchesFor, flatten_map_chunksOf e.batch_size hbs _,
    chunksOf_flatten e.max_memory_items hmm]

/-- Helper: consuming the futures of a batch in submission order yields
the results unchanged. -/
theorem asCompleted_range (l : List β) : asCompleted (List.range l.length) l = l := by
  induction l with
  | nil => rfl
  | cons a rest ih =>
      rw [List.length_cons, List.range_succ_eq_map, asCompleted, List.filterMap_cons]
      have h0 : (a :: rest).get? 0 = some a := rfl
      rw [h0, List.filterMap_map]
      have hcomp : ((fun i => (a :: rest).get? i) ∘ Nat.succ) = fun i => rest.get? i := rfl
      rw [hcomp]
      exact congrArg (a :: ·) ih

/-- Helper: consuming a batch in any completion order permutes its
results. -/
theorem asCompleted_perm {l : List β} {order : List Nat}
    (h : order.Perm (List.range l.length)) : (asCompleted order l).Perm l := by
  have h2 := h.filterMap (fun i => l.get? i)
  rw [show (List.range l.length).filterMap (fun i => l.get? i) = l from asCompleted_range l]
    at h2
  exact h2

/-- Helper: flattening the per-batch completion-ordered results permutes
the flattened mapped batches. -/
theorem streaming_batches_perm (f : α → β) (sched : Nat → List Nat) :
    ∀ (bs : List (List α)) (k : Nat),
      (∀ i, (h : i < bs.length) → (sched (k + i)).Perm (List.range (bs.get ⟨i, h⟩).length)) →
      (((bs.enumFrom k).map (fun p => asCompleted (sched p.1) (p.2.map f))).flatten).Perm
        ((bs.map (List.map f)).flatten) := by
  intro bs
  induction bs with
  | nil => intro k _; simp
  | cons b rest ih =>
      intro k hvalid
      simp only [List.enumFrom_cons, List.map_cons, List.flatten_cons]
      refine List.Perm.append ?_ (ih (k + 1) ?_)
      · apply asCompleted_perm
        rw [List.length_map]
        simpa using hvalid 0 (by simp)
      · intro i hi
        have h := hvalid (i + 1) (by simpa using Nat.succ_lt_succ hi)
        have hk : k + 1 + i = k + (i + 1) := by omega
        rw [hk]
        simpa using h

/-- Helper: when every batch completes in submission order, the streaming
output is exactly the mapped batches in order. -/
theorem streaming_batches_inorder (f : α → β) (sched : Nat → List Nat) :
    ∀ (bs : List (List α)) (k : Nat),
      (∀ i, i < bs.length → sched (k + i) = List.range ((bs.getD i []).length)) →
      ((bs.enumFrom k).map (fun p => asCompleted (sched p.1) (p.2.map f))).flatten
        = (bs.map (List.map f)).flatten := by
  intro bs
  induction bs with
  | nil => intro k _; rfl
  | cons b rest ih =>
      intro k hvalid
      simp only [List.enumFrom_cons, List.map_cons, List.flatten_cons]
      have h0 : sched k = List.range ((b.map f).length) := by
        rw [List.length_map]
        simpa using hvalid 0 (by simp)
      rw [h0, asCompleted_range (b.map f)]
      refine congrArg (b.map f ++ ·) (ih (k + 1) ?_)
      intro i hi
      have h := hvalid (i + 1) (by simpa using Nat.succ_lt_succ hi)
      have hk : k + 1 + i = k + (i + 1) := by omega
      rw [hk]
      simpa using h

/-- Claim C4 counterexample: with the default configuration (4 workers,
batch size 8) on the plain list [0, 1] with f x = x*2, the completion
order in which the second submitted task finishes first is a valid
thread-pool behaviour, and execute then yields [2, 0], not the input
order [0, 2]. -/
theorem batch_streaming_order_counterexample :
    ValidSched swapSched (ThreadExecutor.batchesFor ⟨some 4, 10000⟩ ([0, 1] : List Int))
    ∧ ThreadExecutor.executeList ⟨some 4, 10000⟩ (fun x : Int => x * 2) [0, 1] swapSched
        = [2, 0]
    ∧ ([2, 0] : List Int) ≠ [0, 1].map (fun x : Int => x * 2) := by
  refine ⟨?_, rfl, by decide⟩
  intro i h
  have hlen : (ThreadExecutor.batchesFor ⟨some 4, 10000⟩ ([0, 1] : List Int)).length = 1 :=
    rfl
  rw [hlen] at h
  have hi : i = 0 := by omega
  subst hi
  show (swapSched 0).Perm (List.range 2)
  decide

/-- Claim C4 (amended): on a plain list the thread executor yields exactly
one result per input item (the output is a permutation of the mapped
input, of the same length), batches are processed in submission order, but
within each batch results are yielded in completion order; the output
order equals the input order exactly when every batch completes in
submission order. -/
theorem batch_streaming_one_result_per_item {α β : Type} (e : ThreadExecutor) (f : α → β)
    (dataList : List α) (sched : Nat → List Nat)
    (hmm : 0 < e.max_memory_items)
    (hsched : ValidSched sched (e.batchesFor dataList)) :
    (e.executeList f dataList sched).Perm (dataList.map f)
    ∧ (e.executeList f dataList sched).length = (dataList.map f).length
    ∧ e.executeList f dataList (inOrderSched e dataList) = dataList.map f := by
  have hflat : ((e.batchesFor dataList).map (List.map f)).flatten = dataList.map f := by
    rw [← List.map_flatten, batchesFor_flatten e hmm]
  have hperm : (e.executeList f dataList sched).Perm (dataList.map f) := by
    have h := streaming_batches_perm f sched (e.batchesFor dataList) 0
      (by intro i hi; simpa using hsched i hi)
    rw [hflat] at h
    exact h
  refine ⟨hperm, hperm.length_eq, ?_⟩
  have h := streaming_batches_inorder f (inOrderSched e dataList) (e.batchesFor dataList) 0
    (by intro i hi; simp [inOrderSched])
  rw [hflat] at h
  exact h

/-- Witness for batch_streaming_one_result_per_item: the default executor
on [0, 1, 2] with doubling, completing in submission order, yields
[0, 2, 4]. -/
theorem batch_streaming_one_result_per_item_witness :
    ThreadExecutor.executeList ⟨some 4, 10000⟩ (fun x : Int => x * 2) [0, 1, 2]
      (inOrderSched ⟨some 4, 10000⟩ [0, 1, 2]) = [0, 2, 4] := by
  have h := (batch_streaming_one_result_per_item ⟨some 4, 10000⟩ (fun x : Int => x * 2)
    [0, 1, 2] (inOrderSched ⟨some 4, 10000⟩ [0, 1, 2]) (by decide) ?valid).2.2
  case valid =>
    intro i hi
    have hlen : (ThreadExecutor.batchesFor ⟨some 4, 10000⟩ ([0, 1, 2] : List Int)).length = 1 :=
      rfl
    rw [hlen] at hi
    have h0 : i = 0 := by omega
    subst h0
    show (inOrderSched ⟨some 4, 10000⟩ ([0, 1, 2] : List Int) 0).Perm (List.range 3)
    decide
  exact h.trans (by decide)

/-- Helper: concCompute at zero fuel. -/
theorem concCompute_zero (P : PipelineG) (initial : Val) (n : String) :
    concCompute P initial 0 n = none := rfl

/-- Helper: one unfolding of concCompute. -/
theorem concCompute_succ (P : PipelineG) (initial : Val) (F : Nat) (n : String) :
    concCompute P initial (F + 1) n =
      match (P.operators.find? (fun e => e.1 = n)).map Prod.snd with
      | none => none
      | some f =>
          (optMapM (concCompute P initial F) (concDeps P.edges n)).map
            (fun vs => f (assembleInput initial vs)) := rfl

/-- Helper: seqExecOp at zero fuel. -/
theorem seqExecOp_zero (P : PipelineG) (opName : String) (input : Val) (st : SeqState) :
    seqExecOp P 0 opName input st = none := rfl

/-- Helper: one unfolding of seqExecOp. -/
theorem seqExecOp_succ (P : PipelineG) (F : Nat) (opName : String) (input : Val)
    (st : SeqState) :
    seqExecOp P (F + 1) opName input st =
      if st.executed.contains opName then
        match resLookup st.results opName with
        | some v => some (v, st)
        | none => none
      else
        match (P.operators.find? (fun e => e.1 = opName)).map Prod.snd with
        | none => none
        | some f =>
            match seqDepsRun (seqExecOp P F) P.edges P.names opName input st with
            | none => none
            | some (deps, st1) =>
                some (f (assembleInput input deps),
                  ⟨st1.executed ++ [opName],
                    st1.results ++ [(opName, f (assembleInput input deps))]⟩) := rfl

/-- Helper: collecting dependency results succeeds for a larger awaiting
function whenever it succeeds for a smaller one. -/
theorem optMapM_mono {g h : String → Option Val}
    (hgh : ∀ a v, g a = some v → h a = some v) :
    ∀ (l : List String) (vs : List Val), optMapM g l = some vs → optMapM h l = some vs := by
  intro l
  induction l with
  | nil => intro vs hv; exact hv
  | cons a rest ih =>
      intro vs hv
      simp only [optMapM] at hv ⊢
      cases hga : g a with
      | none => rw [hga] at hv; exact absurd hv (by simp)
      | some w =>
          rw [hga] at hv
          rw [hgh a w hga]
          cases hrest : optMapM g rest with
          | none => rw [hrest] at hv; exact absurd hv (by simp)
          | some ws => rw [hrest] at hv; rw [ih ws hrest]; exact hv

/-- Helper: concCompute is monotone in fuel. -/
theorem concCompute_mono (P : PipelineG) (initial : Val) :
    ∀ (F F' : Nat), F ≤ F' → ∀ (n : String) (v : Val),
      concCompute P initial F n = some v → concCompute P initial F' n = some v := by
  intro F
  induction F with
  | zero =>
      intro F' _ n v hv
      rw [concCompute_zero] at hv
      exact absurd hv (by simp)
  | succ F ih =>
      intro F' hF n v hv
      obtain ⟨F2, rfl⟩ : ∃ k, F' = k + 1 := ⟨F' - 1, by omega⟩
      rw [concCompute_succ] at hv ⊢
      cases hfind : (P.operators.find? (fun e => e.1 = n)).map Prod.snd with
      | none => rw [hfind] at hv; exact absurd hv (by simp)
      | some f =>
          simp only [hfind] at hv ⊢
          cases hmap : optMapM (concCompute P initial F) (concDeps P.edges n) with
          | none => rw [hmap] at hv; exact absurd hv (by simp)
          | some vs =>
              rw [hmap] at hv
              rw [optMapM_mono (fun a w hw => ih F2 (by omega) a w hw) _ vs hmap]
              exact hv

/-- Helper: pointwise concurrent computability of a dependency list gives
one uniform fuel for the whole list. -/
theorem forall2_optMapM (P : PipelineG) (initial : Val) :
    ∀ (ds : List String) (vs : List Val),
      List.Forall₂ (fun d w => ∃ G, concCompute P initial G d = some w) ds vs →
      ∃ G, optMapM (concCompute P initial G) ds = some vs := by
  intro ds vs h
  induction h with
  | nil => exact ⟨0, rfl⟩
  | cons hd hrest ih =>
      obtain ⟨G1, hG1⟩ := hd
      obtain ⟨G2, hG2⟩ := ih
      refine ⟨max G1 G2, ?_⟩
      simp only [optMapM]
      rw [concCompute_mono P initial G1 (max G1 G2) (le_max_left G1 G2) _ _ hG1]
      rw [optMapM_mono
        (fun a w hw => concCompute_mono P initial G2 (max G1 G2) (le_max_right G1 G2) a w hw)
        _ _ hG2]
      rfl

/-- Helper: appending one record preserves agreement when the new value is
concurrently computable. -/
theorem concAgrees_append (P : PipelineG) (initial : Val) (rs : List (String × Val))
    (n0 : String) (v0 : Val) (hag : ConcAgrees P initial rs)
    (hv0 : ∃ G, concCompute P initial G n0 = some v0) :
    ConcAgrees P initial (rs ++ [(n0, v0)]) := by
  intro m v hm
  rw [resLookup, List.find?_append] at hm
  cases hfind : rs.find? (fun e => e.1 = m) with
  | some w =>
      rw [hfind] at hm
      have hred : ((some w).or (List.find? (fun e => e.1 = m) [(n0, v0)])) = some w := rfl
      rw [hred] at hm
      exact hag m v (by rw [resLookup, hfind]; exact hm)
  | none =>
      rw [hfind] at hm
      have hred : ((Option.none).or (List.find? (fun e => e.1 = m) [(n0, v0)]))
          = List.find? (fun e => e.1 = m) [(n0, v0)] := rfl
      rw [hred] at hm
      by_cases hm0 : n0 = m
      · have hone : List.find? (fun e => e.1 = m) [(n0, v0)] = some (n0, v0) :=
          List.find?_cons_of_pos _ (by simp [hm0])
        rw [hone] at hm
        simp only [Option.map_some'] at hm
        obtain rfl := Option.some.inj hm
        rw [← hm0]
        exact hv0
      · have hone : List.find? (fun e => e.1 = m) [(n0, v0)] = none := by
          rw [List.find?_cons_of_neg _ (by simp [hm0])]
          rfl
        rw [hone] at hm
        exact absurd hm (by simp)

/-- Helper: a successful operator lookup means the name is in the graph. -/
theorem find?_map_some_mem (P : PipelineG) (op : String) (f : Val → Val)
    (h : (P.operators.find? (fun e => e.1 = op)).map Prod.snd = some f) : op ∈ P.names := by
  obtain ⟨e, he, hef⟩ := Option.map_eq_some'.1 h
  have hp := List.find?_some he
  have hmem := List.mem_of_find?_eq_some he
  have he1 : e.1 = op := by simpa using hp
  rw [PipelineG.names, ← he1]
  exact List.mem_map_of_mem Prod.fst hmem

/-- Helper: the dependency-collection loop preserves agreement and each
collected value is concurrently computable, pointwise along the scanned
predecessor list. -/
theorem seqDepsRun_sound (P : PipelineG) (initial : Val) (F : Nat)
    (IH : ∀ (op : String) (st : SeqState) (v : Val) (st' : SeqState),
        ConcAgrees P initial st.results →
        seqExecOp P F op initial st = some (v, st') →
        (∃ G, concCompute P initial G op = some v) ∧ ConcAgrees P initial st'.results) :
    ∀ (names : List String) (op : String) (st : SeqState) (vs : List Val) (st1 : SeqState),
      ConcAgrees P initial st.results →
      seqDepsRun (seqExecOp P F) P.edges names op initial st = some (vs, st1) →
      ConcAgrees P initial st1.results
      ∧ List.Forall₂ (fun d w => ∃ G, concCompute P initial G d = some w)
          (names.filter (fun d => (edgeLookup P.edges d).contains op)) vs := by
  intro names
  induction names with
  | nil =>
      intro op st vs st1 hag hrun
      simp only [seqDepsRun, Option.some.injEq, Prod.mk.injEq] at hrun
      obtain ⟨h1, h2⟩ := hrun
      subst h1
      subst h2
      exact ⟨hag, by simp⟩
  | cons d rest ihn =>
      intro op st vs st1 hag hrun
      simp only [seqDepsRun] at hrun
      by_cases hedge : (edgeLookup P.edges d).contains op = true
      · rw [if_pos hedge] at hrun
        cases hex : seqExecOp P F d initial st with
        | none => simp only [hex] at hrun; exact absurd hrun (by simp)
        | some p =>
            obtain ⟨w, stA⟩ := p
            simp only [hex] at hrun
            cases hrest : seqDepsRun (seqExecOp P F) P.edges rest op initial stA with
            | none => simp only [hrest] at hrun; exact absurd hrun (by simp)
            | some q =>
                obtain ⟨ws, stB⟩ := q
                simp only [hrest] at hrun
                simp only [Option.some.injEq, Prod.mk.injEq] at hrun
                obtain ⟨h1, h2⟩ := hrun
                subst h1
                subst h2
                obtain ⟨hw, hagA⟩ := IH d st w stA hag hex
                obtain ⟨hagB, hfa⟩ := ihn op stA ws stB hagA hrest
                have hdm : op ∈ edgeLookup P.edges d := by simpa using hedge
                have hfc : List.filter (fun x => (edgeLookup P.edges x).contains op) (d :: rest)
                    = d :: List.filter (fun x => (edgeLookup P.edges x).contains op) rest := by
                  simp [List.filter_cons, hdm]
                rw [hfc]
                exact ⟨hagB, List.Forall₂.cons hw hfa⟩
      · rw [if_neg hedge] at hrun
        obtain ⟨hagB, hfa⟩ := ihn op st vs st1 hag hrun
        have hdm : op ∉ edgeLookup P.edges d := by simpa using hedge
        have hfc : List.filter (fun x => (edgeLookup P.edges x).contains op) (d :: rest)
            = List.filter (fun x => (edgeLookup P.edges x).contains op) rest := by
          simp [List.filter_cons, hdm]
        rw [hfc]
        exact ⟨hagB, hfa⟩

/-- Helper: every value execute_op records agrees with the concurrent
scheduler, under matching dependency orders. -/
theorem seqExecOp_sound (P : PipelineG) (initial : Val)
    (horder : ∀ n ∈ P.names, seqDeps P n = concDeps P.edges n) :
    ∀ (F : Nat) (op : String) (st : SeqState) (v : Val) (st' : SeqState),
      ConcAgrees P initial st.results →
      seqExecOp P F op initial st = some (v, st') →
      (∃ G, concCompute P initial G op = some v) ∧ ConcAgrees P initial st'.results := by
  intro F
  induction F with
  | zero =>
      intro op st v st' _ hrun
      rw [seqExecOp_zero] at hrun
      exact absurd hrun (by simp)
  | succ F ih =>
      intro op st v st' hag hrun
      rw [seqExecOp_succ] at hrun
      by_cases hex : st.executed.contains op = true
      · rw [if_pos hex] at hrun
        cases hres : resLookup st.results op with
        | none => simp only [hres] at hrun; exact absurd hrun (by simp)
        | some w =>
            simp only [hres] at hrun
            simp only [Option.some.injEq, Prod.mk.injEq] at hrun
            obtain ⟨h1, h2⟩ := hrun
            subst h1
            subst h2
            exact ⟨hag op w hres, hag⟩
      · rw [if_neg hex] at hrun
        cases hfind : (P.operators.find? (fun e => e.1 = op)).map Prod.snd with
        | none => simp only [hfind] at hrun; exact absurd hrun (by simp)
        | some f =>
            simp only [hfind] at hrun
            cases hdeps : seqDepsRun (seqExecOp P F) P.edges P.names op initial st with
            | none => simp only [hdeps] at hrun; exact absurd hrun (by simp)
            | some pq =>
                obtain ⟨deps, st1⟩ := pq
                simp only [hdeps] at hrun
                simp only [Option.some.injEq, Prod.mk.injEq] at hrun
                obtain ⟨hv, hst⟩ := hrun
                subst hv
                subst hst
                obtain ⟨hag1, hfa⟩ := seqDepsRun_sound P initial F ih P.names op st deps st1
                  hag hdeps
                have hmem : op ∈ P.names := find?_map_some_mem P op f hfind
                rw [show P.names.filter (fun d => (edgeLookup P.edges d).contains op)
                    = concDeps P.edges op from horder op hmem] at hfa
                obtain ⟨G, hG⟩ := forall2_optMapM P initial (concDeps P.edges op) deps hfa
                have hcc : concCompute P initial (G + 1) op
                    = some (f (assembleInput initial deps)) := by
                  rw [concCompute_succ]
                  simp only [hfind, hG, Option.map_some']
                refine ⟨⟨G + 1, hcc⟩, ?_⟩
                exact concAgrees_append P initial st1.results op
                  (f (assembleInput initial deps)) hag1 ⟨G + 1, hcc⟩

/-- Helper: folding execute_op over the leaf worklist preserves
agreement. -/
theorem seqFold_sound (P : PipelineG) (initial : Val)
    (horder : ∀ n ∈ P.names, seqDeps P n = concDeps P.edges n) (fuel : Nat) :
    ∀ (ls : List String) (st stF : SeqState),
      ConcAgrees P initial st.results →
      ls.foldlM (fun s leaf => (seqExecOp P fuel leaf initial s).map Prod.snd) st = some stF →
      ConcAgrees P initial stF.results := by
  intro ls
  induction ls with
  | nil =>
      intro st stF hag h
      simp only [List.foldlM_nil] at h
      obtain rfl := Option.some.inj h
      exact hag
  | cons leaf rest ih =>
      intro st stF hag h
      rw [List.foldlM_cons] at h
      cases hex : seqExecOp P fuel leaf initial st with
      | none => rw [hex] at h; simp at h
      | some p =>
          obtain ⟨v, st1⟩ := p
          rw [hex] at h
          have h2 : rest.foldlM
              (fun s leaf => (seqExecOp P fuel leaf initial s).map Prod.snd) st1 = some stF := by
            simpa using h
          exact ih st1 stF ((seqExecOp_sound P initial horder fuel leaf st v st1 hag hex).2) h2

/-- Claim C1 (amended): whenever in a graph every node sees its
predecessors in the same order under the sequential scan (operator
insertion order) and the concurrent reverse-dependency build (edge
insertion order), every entry of the sequential results map equals the
value the concurrent schedulers compute for that node; on the diamond
A to B, A to C, B and C to D with A the identity on input 5, B adding 1,
C adding 2 and D summing, the sequential scheduler and the concurrent
schedulers return identical results maps with results D equal to 13 (the
value 8 stated in the specification is an arithmetic slip:
(5+1)+(5+2) = 13). -/
theorem scheduler_agreement :
    (∀ (P : PipelineG) (initial : Val) (res : List (String × Val)),
        (∀ n ∈ P.names, seqDeps P n = concDeps P.edges n) →
        P.execute initial = some res →
        ∀ n v, resLookup res n = some v → ∃ G, concCompute P initial G n = some v)
    ∧ diamond.execute (Val.vint 5)
        = some [("A", Val.vint 5), ("B", Val.vint 6), ("C", Val.vint 7), ("D", Val.vint 13)]
    ∧ concExecute diamond (Val.vint 5)
        = [("A", some (Val.vint 5)), ("B", some (Val.vint 6)), ("C", some (Val.vint 7)),
            ("D", some (Val.vint 13))]
    ∧ diamond.names.map
          (resLookup [("A", Val.vint 5), ("B", Val.vint 6), ("C", Val.vint 7),
            ("D", Val.vint 13)])
        = diamond.names.map (concCompute diamond (Val.vint 5) 5)
    ∧ resLookup [("A", Val.vint 5), ("B", Val.vint 6), ("C", Val.vint 7), ("D", Val.vint 13)]
        "D" = some (Val.vint 13) := by
  refine ⟨?_, by decide, by decide, by decide, by decide⟩
  intro P initial res horder hrun n v hl
  rw [PipelineG.execute] at hrun
  by_cases hemp : P.operators.isEmpty
  · rw [if_pos hemp] at hrun
    exact absurd hrun (by simp)
  · rw [if_neg hemp] at hrun
    obtain ⟨stF, hfold, hres⟩ := Option.map_eq_some'.1 hrun
    have hag0 : ConcAgrees P initial (⟨[], []⟩ : SeqState).results := by
      intro m w hm
      exact absurd hm (by simp [resLookup])
    have hagF := seqFold_sound P initial horder (P.operators.length + 1) _ _ stF hag0 hfold
    rw [hres] at hagF
    exact hagF n v hl

/-- Witness for scheduler_agreement: applied to the diamond, the recorded
sequential value 13 for D is concurrently computable. -/
theorem scheduler_agreement_witness :
    ∃ G, concCompute diamond (Val.vint 5) G "D" = some (Val.vint 13) := by
  refine scheduler_agreement.1 diamond (Val.vint 5)
    [("A", Val.vint 5), ("B", Val.vint 6), ("C", Val.vint 7), ("D", Val.vint 13)]
    ?_ (by decide) "D" (Val.vint 13) (by decide)
  intro n hn
  have hn4 : n = "A" ∨ n = "B" ∨ n = "C" ∨ n = "D" := by
    simpa [PipelineG.names, diamond] using hn
  rcases hn4 with rfl | rfl | rfl | rfl <;> decide

/-- Claim C1 counterexample: the diamond of the specification yields
results D = 13, not 8, under the sequential scheduler (and 13 under the
concurrent one as well); moreover, on a diamond whose two edges into D
were created in the order C before B while the operators were inserted in
the order A, B, C, D, the sequential scheduler feeds D the inputs in the
order [B, C] and computes -1 under an order-sensitive D while the
concurrent schedulers feed [C, B] and compute 1, so the two schedulers do
not produce identical results maps for all valid DAGs. -/
theorem scheduler_claim_counterexample :
    (diamond.execute (Val.vint 5)).bind (fun rs => resLookup rs "D") = some (Val.vint 13)
    ∧ some (Val.vint 13) ≠ some (Val.vint 8)
    ∧ (diamondSwapped.execute (Val.vint 5)).bind (fun rs => resLookup rs "D")
        = some (Val.vint (-1))
    ∧ concCompute diamondSwapped (Val.vint 5) 5 "D" = some (Val.vint 1)
    ∧ (Val.vint (-1) : Val) ≠ Val.vint 1 := by
  exact ⟨by decide, by decide, by decide, by decide, by decide⟩
